import Mathlib

set_option maxRecDepth 20000
set_option exponentiation.threshold 1100

/-!
Verification of the revenue-table extraction and normalization routine of
`coursera_ibm_stock_revenue_mac.py` (`clean_revenue_table` / `get_revenue_table`).

The embedding models a pandas DataFrame as a `RawTable`: a list of column
names and a list of rows of cells.  A cell is missing (`Cell.na`, pandas NaN),
a string, or a number (modelled as `ℚ`; pandas floats that the script ever
produces come from parsing decimal strings, so they are decimal rationals).
Fallible steps (the `iloc` column selection) are modelled in `Option`: a
`none` result stands for a raised exception.
-/

/-! ## Characters and digit strings -/

def isDig (c : Char) : Bool := 48 ≤ c.toNat && c.toNat ≤ 57

def isSpc (c : Char) : Bool :=
  c == ' ' || c == '\t' || c == '\n' || c == '\r' || c == '\x0b' || c == '\x0c'

def digitChar (d : Nat) : Char := Char.ofNat (48 + d)

def digitVal (c : Char) : Nat := c.toNat - 48

/-- Value of a big-endian digit string. -/
def digitsToNat (l : List Char) : Nat := l.foldl (fun a c => 10 * a + digitVal c) 0

/-- Little-endian decimal digits of `n`, with explicit fuel (the fuel `n` itself
is always enough). -/
def natDigitsAux : Nat → Nat → List Char
  | 0, _ => []
  | _ + 1, 0 => []
  | fuel + 1, n + 1 => digitChar ((n + 1) % 10) :: natDigitsAux fuel ((n + 1) / 10)

/-- Big-endian decimal digits of `n` (empty for 0). -/
def natDigitsBE (n : Nat) : List Char := (natDigitsAux n n).reverse

/-- Decimal digit string of `n`, `"0"` for 0. -/
def natChars (n : Nat) : List Char := if n = 0 then ['0'] else natDigitsBE n

def signChars (n : Int) : List Char := if n < 0 then ['-'] else []

def intChars (n : Int) : List Char := signChars n ++ natChars n.natAbs

/-! ## String helpers mirroring the Python string methods -/

/-- Bool test: is `p` a leading segment of `l`. -/
def isPrefixB : List Char → List Char → Bool
  | [], _ => true
  | _ :: _, [] => false
  | a :: as, b :: bs => a == b && isPrefixB as bs

/-- Bool test: does `needle` occur contiguously inside `l`. -/
def isInfixB (needle : List Char) : List Char → Bool
  | [] => needle.isEmpty
  | c :: rest => isPrefixB needle (c :: rest) || isInfixB needle rest

/-- Python `needle in hay` on strings. -/
def containsSub (hay needle : String) : Bool := isInfixB needle.data hay.data

/-- Python `str.lower()`. -/
def strLower (s : String) : String := String.mk (s.data.map Char.toLower)

/-- Python `str.strip()`: drop whitespace from both ends. -/
def pyStrip (s : String) : String :=
  String.mk (((s.data.dropWhile isSpc).reverse.dropWhile isSpc).reverse)

/-- The script's `str.replace("$", "").str.replace(",", "")`. -/
def stripMoney (s : String) : String :=
  String.mk (s.data.filter (fun c => !(c == '$' || c == ',')))

/-! ## The numeric parser (`pd.to_numeric(..., errors="coerce")` on a string):
an optional sign, an `inf`/`infinity` word, or decimal digits with an
optional point and an optional exponent.  A failed parse is `none` (pandas:
`NaN`, later dropped by `dropna`); an infinity word, or a decimal whose value
overflows the largest double, yields ±inf, which is *not* NaN and survives
`dropna`. -/

/-- A value `pd.to_numeric` can produce from a string (NaN excluded: NaN is
`none` at the parser level, since such rows are dropped): a finite number,
modelled as an exact rational, or one of the two infinities. -/
inductive PNum where
  | fin : ℚ → PNum
  | pinf : PNum
  | ninf : PNum
deriving DecidableEq

/-- The largest double, `(2^53 - 1) * 2^971`: the parser's scaling overflows
to ±inf beyond it (as `precise_xstrtod` does for large exponents and the
float multiply does for the rest). -/
def floatMax : ℚ := mkRat (((2 ^ 53 - 1) * 2 ^ 971 : Nat) : Int) 1

/-- Box a parsed magnitude: values past the largest double overflow to ±inf. -/
def classify (q : ℚ) : PNum :=
  if floatMax < q then PNum.pinf
  else if q < -floatMax then PNum.ninf
  else PNum.fin q

/-- The infinity words `pd.to_numeric` accepts (after the optional sign),
case-insensitively. -/
def isInfWord (l : List Char) : Bool :=
  decide (l.map Char.toLower = "inf".data) || decide (l.map Char.toLower = "infinity".data)

def signOf (l : List Char) : Int :=
  match l with
  | c :: _ => if c == '-' then -1 else 1
  | [] => 1

def afterSign (l : List Char) : List Char :=
  match l with
  | c :: rest => if c == '-' || c == '+' then rest else l
  | [] => []

/-- The parsed value `sgn * I.F * 10^e` where `F` has `fl` digits, as an exact
rational (built with `mkRat`, which the kernel can evaluate). -/
def mkVal (sgn : Int) (I F fl : Nat) (e : Int) : ℚ :=
  if 0 ≤ e then mkRat (sgn * ((I * 10 ^ fl + F : Nat) : Int) * 10 ^ e.toNat) (10 ^ fl)
  else mkRat (sgn * ((I * 10 ^ fl + F : Nat) : Int)) (10 ^ (fl + e.natAbs))

/-- Parse the exponent tail: empty, or `e`/`E`, an optional sign and digits. -/
def parseExp : List Char → Option Int
  | [] => some 0
  | c :: rest =>
    if c == 'e' || c == 'E' then
      let r1 := afterSign rest
      let es := r1.takeWhile isDig
      let r2 := r1.dropWhile isDig
      if es.isEmpty || !r2.isEmpty then none
      else some (signOf rest * (digitsToNat es : Int))
    else none

def parseNumL (l : List Char) : Option PNum :=
  let sgn := signOf l
  let l1 := afterSign l
  if isInfWord l1 then some (if sgn < 0 then PNum.ninf else PNum.pinf)
  else
    let ds := l1.takeWhile isDig
    let l2 := l1.dropWhile isDig
    match l2 with
    | c :: l3 =>
      if c == '.' then
        let fs := l3.takeWhile isDig
        let l4 := l3.dropWhile isDig
        if ds.isEmpty && fs.isEmpty then none
        else (parseExp l4).map (fun e =>
          classify (mkVal sgn (digitsToNat ds) (digitsToNat fs) fs.length e))
      else
        if ds.isEmpty then none
        else (parseExp (c :: l3)).map (fun e => classify (mkVal sgn (digitsToNat ds) 0 0 e))
    | [] =>
      if ds.isEmpty then none
      else (parseExp []).map (fun e => classify (mkVal sgn (digitsToNat ds) 0 0 e))

def parseNum (s : String) : Option PNum := parseNumL s.data

/-! ## Printing a number back to a string (Python `str(float)`).

`astype(str)` is applied by the script to every cell, so re-running the
cleaner on its own output parses the printed value again.  The printer emits
an exact decimal expansion when one exists (every number the parser can
produce has one); Python prints the shortest such expansion, and everything
downstream depends only on the parsed value, which agrees. -/

/-- Exactly `k` fractional digits of `m < 10^k`, left-padded with zeros. -/
def fracChars (k m : Nat) : List Char :=
  List.replicate (k - (natDigitsBE m).length) '0' ++ natDigitsBE m

def pyFloatStr (q : ℚ) : String :=
  if q.den = 1 then String.mk (intChars q.num ++ ['.', '0'])
  else if q.den ∣ 10 ^ q.den then
    String.mk (signChars q.num ++
      natChars (q.num.natAbs * (10 ^ q.den / q.den) / 10 ^ q.den) ++
      '.' :: fracChars q.den (q.num.natAbs * (10 ^ q.den / q.den) % 10 ^ q.den))
  else String.mk ('<' :: (intChars q.num ++ '/' :: natChars q.den ++ ['>']))

/-- Python `str` on a parsed value: `str(float("inf")) = "inf"`. -/
def pyNumStr : PNum → String
  | PNum.fin q => pyFloatStr q
  | PNum.pinf => "inf"
  | PNum.ninf => "-inf"

/-! ## Date normalization (`_norm_date`):
`re.search(r"(\d{4}-\d{2}-\d{2}|\d{4}-\d{2}|\d{4})", s)` scans left to right
and, at the first position where four digits start, prefers the longest
alternative; if nothing matches the cell is returned unchanged. -/

def shape4 (t : List Char) : Bool :=
  match t with
  | [a, b, c, d] => isDig a && isDig b && isDig c && isDig d
  | _ => false

def shape7 (t : List Char) : Bool :=
  match t with
  | [a, b, c, d, h1, e, f] =>
    isDig a && isDig b && isDig c && isDig d && h1 == '-' && isDig e && isDig f
  | _ => false

def shape10 (t : List Char) : Bool :=
  match t with
  | [a, b, c, d, h1, e, f, h2, g, h] =>
    isDig a && isDig b && isDig c && isDig d && h1 == '-' && isDig e && isDig f &&
      h2 == '-' && isDig g && isDig h
  | _ => false

def isDateShape (t : List Char) : Bool := shape10 t || shape7 t || shape4 t

/-- The regex alternation `\d{4}-\d{2}-\d{2}|\d{4}-\d{2}|\d{4}` tried at the
head of `l`: the alternatives in their written order, so the longest form
wins at a given position. -/
def try4 (l : List Char) : Option (List Char) :=
  if shape10 (l.take 10) then some (l.take 10)
  else if shape7 (l.take 7) then some (l.take 7)
  else if shape4 (l.take 4) then some (l.take 4)
  else none

/-- Leftmost match of the date pattern, as `re.search` finds it: scan the
start positions left to right. -/
def findDate : List Char → Option (List Char)
  | [] => none
  | c :: rest =>
    match try4 (c :: rest) with
    | some m => some m
    | none => findDate rest

/-- The script's `_norm_date`. -/
def normDate (s : String) : String :=
  match findDate s.data with
  | some m => String.mk m
  | none => s

/-! ## Spec-side date functions, written from the specification's words and
compared against `normDate` in the theorems. -/

def subAt (l : List Char) (i n : Nat) : List Char := (l.drop i).take n

/-- Modelled from the spec: the longest of the three forms starting at
position `i`, if any. -/
def matchAtPos (l : List Char) (i : Nat) : Option (List Char) :=
  if shape10 (subAt l i 10) then some (subAt l i 10)
  else if shape7 (subAt l i 7) then some (subAt l i 7)
  else if shape4 (subAt l i 4) then some (subAt l i 4)
  else none

/-- Modelled from the spec (amended reading): the match at the leftmost
position where the pattern matches, the longest form at that position;
the cell text unchanged when there is none. -/
def specNormDate (s : String) : String :=
  match (List.range (s.data.length + 1)).findSome? (fun i => matchAtPos s.data i) with
  | some m => String.mk m
  | none => s

/-- Modelled from the spec (claim reading): the longest substring anywhere in
the cell matching one of the three date forms. -/
def specLongestAnywhere (s : String) : Option String :=
  (((List.range (s.data.length + 1)).foldr (fun i acc =>
      ([10, 7, 4].filterMap (fun n =>
        if isDateShape (subAt s.data i n) then some (subAt s.data i n) else none)) ++ acc) []).foldl
    (fun a t =>
      match a with
      | none => some t
      | some b => if b.length < t.length then some t else a) none).map String.mk

/-! ## The table model -/

inductive Cell where
  | na : Cell
  | str : String → Cell
  | num : PNum → Cell
deriving DecidableEq

/-- Python `str(cell)` as `astype(str)` performs it: NaN prints as `"nan"`. -/
def pyStr : Cell → String
  | Cell.na => "nan"
  | Cell.str s => s
  | Cell.num v => pyNumStr v

structure RawTable where
  cols : List String
  rows : List (List Cell)
deriving DecidableEq

/-- Cell of a row at column `i`; pandas fills missing positions with NaN. -/
def cellAt (r : List Cell) (i : Nat) : Cell := r.getD i Cell.na

/-- Python `next((i for i, c in enumerate(l) if p c), None)`. -/
def firstIdx (p : α → Bool) : List α → Option Nat
  | [] => none
  | a :: rest => if p a then some 0 else (firstIdx p rest).map (· + 1)

/-- Index of the date-like column: first lowered name containing `"date"` or
`"period"`, else 0. -/
def dateIdxOf (cols : List String) : Nat :=
  (firstIdx (fun c => containsSub c "date" || containsSub c "period")
    (cols.map strLower)).getD 0

/-- Index of the revenue-like column: first lowered name containing
`"revenue"`, else 1 when there is more than one column, else 0. -/
def revIdxOf (cols : List String) : Nat :=
  (firstIdx (fun c => containsSub c "revenue")
    (cols.map strLower)).getD (if 1 < cols.length then 1 else 0)

/-- The empty result `pd.DataFrame(columns=["Date", "Revenue"])`. -/
def emptyOut : RawTable := { cols := ["Date", "Revenue"], rows := [] }

/-- The revenue-cell pipeline `astype(str)`, strip `$` and `,`, trim. -/
def cleanCellStr (r : Cell) : String := pyStrip (stripMoney (pyStr r))

/-- One row through the cleaner: `dropna(how="all")`, the revenue string
pipeline, the `!= ""` filter, `to_numeric` with coercion, `dropna` on the
result, and `_norm_date` on the date cell. -/
def rowClean (d r : Cell) : Option (List Cell) :=
  if d = Cell.na ∧ r = Cell.na then none
  else if cleanCellStr r = "" then none
  else
    match parseNum (cleanCellStr r) with
    | none => none
    | some v => some [Cell.str (normDate (pyStr d)), Cell.num v]

/-- `clean_revenue_table`.  The argument is `Optional[pd.DataFrame]`; the
result is `none` exactly when the Python code would raise (the `iloc` column
selection with an out-of-range index). -/
def cleanRevenueTable : Option RawTable → Option RawTable
  | none => some emptyOut
  | some df =>
    if df.rows = [] ∨ df.cols = [] then some emptyOut
    else
      if dateIdxOf df.cols < df.cols.length ∧ revIdxOf df.cols < df.cols.length then
        some { cols := ["Date", "Revenue"],
               rows := df.rows.filterMap (fun r =>
                 rowClean (cellAt r (dateIdxOf df.cols)) (cellAt r (revIdxOf df.cols))) }
      else none

/-! ## `get_revenue_table` after the fetch: the parsed document -/

/-- The site-specific `<table class="table">`, when present: its `<th>` texts
and the `<td>` texts of each `<tr>`. -/
structure SiteTable where
  ths : List String
  trRows : List (List String)
deriving DecidableEq

/-- A fetched document as the parsers see it: the optional site-specific
table, and the tables present in the document for generic discovery
(`pd.read_html`, which raises rather than return an empty list). -/
structure Document where
  siteTable : Option SiteTable
  genericTables : List RawTable
deriving DecidableEq

/-- Width `pd.DataFrame(rows)` gives a ragged list of rows. -/
def tableWidth (rows : List (List String)) : Nat :=
  rows.foldr (fun r m => max r.length m) 0

/-- `pd.DataFrame(rows)`: positional integer column labels, string cells. -/
def dfOfRows (rows : List (List String)) : RawTable :=
  { cols := (List.range (tableWidth rows)).map (fun i => toString i),
    rows := rows.map (fun r => r.map Cell.str) }

/-- The generic-fallback filter: at least two columns and some column name
containing `"revenue"` case-insensitively. -/
def revenuePred (t : RawTable) : Bool :=
  decide (2 ≤ t.cols.length) && t.cols.any (fun c => containsSub (strLower c) "revenue")

def revenueCandidates (ts : List RawTable) : List RawTable := ts.filter revenuePred

/-- Python `max(ts, key=lambda t: t.shape[1])`: the first widest table. -/
def widestTable : List RawTable → Option RawTable
  | [] => none
  | t :: rest =>
    match widestTable rest with
    | none => some t
    | some b => some (if t.cols.length < b.cols.length then b else t)

/-- `get_revenue_table` on a fetched document.  `doc.genericTables` is what
generic discovery finds; `pd.read_html` raises `ValueError("No tables
found")` instead of returning an empty list, so a document with no tables at
all makes the call raise (`none` here) before the candidate filtering can
run — the `if not candidates: return empty` line of the source is dead. -/
def getRevenueTable (doc : Document) : Option RawTable :=
  match doc.siteTable with
  | some st =>
    let df := dfOfRows (st.trRows.filter (fun r => !r.isEmpty))
    cleanRevenueTable (some
      (if st.ths ≠ [] ∧ st.ths.length = df.cols.length then
        { df with cols := st.ths } else df))
  | none =>
    if doc.genericTables = [] then none
    else
      match revenueCandidates doc.genericTables with
      | t :: _ => cleanRevenueTable (some t)
      | [] =>
        match widestTable doc.genericTables with
        | some t => cleanRevenueTable (some t)
        | none => some emptyOut

/-- Detectability of a revenue-like column, as the spec words it. -/
def hasRevCol (cols : List String) : Bool :=
  cols.any (fun c => containsSub (strLower c) "revenue")

/-- Detectability of a date-like column, as the spec words it. -/
def hasDateCol (cols : List String) : Bool :=
  cols.any (fun c => containsSub (strLower c) "date" || containsSub (strLower c) "period")

/-! ## Concrete sample inputs used by the examples below -/

/-- A table whose revenue column holds a negative amount. -/
def sampleNegTable : RawTable :=
  ⟨["Date", "Revenue"], [[Cell.str "2021", Cell.str "-5"]]⟩

/-- A small well-formed table. -/
def sampleTable : RawTable :=
  ⟨["Date", "Revenue"], [[Cell.str "2021-03-31", Cell.str "$5"], [Cell.str "x", Cell.str "y"]]⟩

/-- A generic table without a revenue-like column. -/
def genTableA : RawTable := ⟨["Fiscal", "Assets"], [[Cell.str "2020", Cell.str "1"]]⟩

/-- A generic table with a revenue-like column. -/
def genTableB : RawTable :=
  ⟨["Date", "Total Revenue"], [[Cell.str "2020-12-31", Cell.str "$7"]]⟩

/-- Another generic table without a revenue-like column. -/
def genTableC : RawTable := ⟨["X", "Y"], [[Cell.str "a", Cell.str "b"]]⟩

/-- The end-to-end document of the spec's example: one site-specific table. -/
def sampleDoc : Document :=
  ⟨some ⟨["Date", "Revenue"], [["2023-12-31", "$1,000"], ["", ""], ["2023-09-30", "abc"]]⟩, []⟩

/-- What the cleaner produces on `sampleTable`. -/
def sampleTableOut : RawTable :=
  ⟨["Date", "Revenue"], [[Cell.str "2021-03-31", Cell.num (PNum.fin 5)]]⟩

/-- A table whose revenue column holds the string `"inf"`. -/
def sampleInfTable : RawTable :=
  ⟨["Date", "Revenue"], [[Cell.str "2021", Cell.str "inf"]]⟩

/-! # Lemmas

## Digit strings -/

theorem isDig_digitChar {d : Nat} (h : d < 10) : isDig (digitChar d) = true := by
  interval_cases d <;> decide

theorem digitVal_digitChar {d : Nat} (h : d < 10) : digitVal (digitChar d) = d := by
  interval_cases d <;> decide

theorem digitsToNat_append (l : List Char) (c : Char) :
    digitsToNat (l ++ [c]) = 10 * digitsToNat l + digitVal c := by
  simp [digitsToNat, List.foldl_append]

theorem digitsToNat_natDigitsAux :
    ∀ fuel n : Nat, n ≤ fuel → digitsToNat ((natDigitsAux fuel n).reverse) = n := by
  intro fuel
  induction fuel with
  | zero =>
    intro n h
    interval_cases n
    simp [natDigitsAux, digitsToNat]
  | succ f ih =>
    intro n h
    match n with
    | 0 => simp [natDigitsAux, digitsToNat]
    | n + 1 =>
      have hdiv : (n + 1) / 10 ≤ f := by omega
      simp only [natDigitsAux, List.reverse_cons]
      rw [digitsToNat_append, ih _ hdiv, digitVal_digitChar (by omega)]
      omega

theorem digitsToNat_natDigitsBE (n : Nat) : digitsToNat (natDigitsBE n) = n :=
  digitsToNat_natDigitsAux n n le_rfl

theorem digitsToNat_natChars (n : Nat) : digitsToNat (natChars n) = n := by
  by_cases h : n = 0
  · subst h; decide
  · rw [natChars, if_neg h]; exact digitsToNat_natDigitsBE n

theorem mem_natDigitsAux :
    ∀ fuel n : Nat, ∀ c ∈ natDigitsAux fuel n, isDig c = true := by
  intro fuel
  induction fuel with
  | zero => intro n c hc; simp [natDigitsAux] at hc
  | succ f ih =>
    intro n c hc
    match n with
    | 0 => simp [natDigitsAux] at hc
    | n + 1 =>
      simp only [natDigitsAux, List.mem_cons] at hc
      rcases hc with hc | hc
      · subst hc; exact isDig_digitChar (by omega)
      · exact ih _ c hc

theorem mem_natChars {n : Nat} : ∀ c ∈ natChars n, isDig c = true := by
  intro c hc
  by_cases h : n = 0
  · subst h; simp [natChars] at hc; subst hc; decide
  · rw [natChars, if_neg h, natDigitsBE] at hc
    exact mem_natDigitsAux n n c (List.mem_reverse.mp hc)

theorem natChars_ne_nil (n : Nat) : natChars n ≠ [] := by
  match n with
  | 0 => decide
  | n + 1 => simp [natChars, natDigitsBE, natDigitsAux]

theorem length_natDigitsAux_le :
    ∀ fuel n k : Nat, n ≤ fuel → n < 10 ^ k → (natDigitsAux fuel n).length ≤ k := by
  intro fuel
  induction fuel with
  | zero =>
    intro n k h _
    interval_cases n
    simp [natDigitsAux]
  | succ f ih =>
    intro n k h hk
    match n with
    | 0 => simp [natDigitsAux]
    | n + 1 =>
      have hk0 : k ≠ 0 := by
        intro h0; subst h0; simp at hk
      obtain ⟨k', rfl⟩ : ∃ k', k = k' + 1 := ⟨k - 1, by omega⟩
      rw [pow_succ] at hk
      have hdivlt : (n + 1) / 10 < 10 ^ k' := Nat.div_lt_iff_lt_mul (by norm_num) |>.mpr hk
      have := ih ((n + 1) / 10) k' (by omega) hdivlt
      simp only [natDigitsAux, List.length_cons]
      omega

theorem length_natDigitsBE_le {n k : Nat} (h : n < 10 ^ k) : (natDigitsBE n).length ≤ k := by
  simpa [natDigitsBE] using length_natDigitsAux_le n n k le_rfl h

theorem digitsToNat_replicate_zero :
    ∀ (j : Nat) (l : List Char),
      digitsToNat (List.replicate j '0' ++ l) = digitsToNat l := by
  intro j
  induction j with
  | zero => intro l; simp
  | succ j ih =>
    intro l
    have hstep : List.replicate (j + 1) '0' ++ l = '0' :: (List.replicate j '0' ++ l) := by
      simp [List.replicate_succ]
    rw [hstep]
    show List.foldl _ (10 * 0 + digitVal '0') _ = _
    have h0 : 10 * 0 + digitVal '0' = 0 := by decide
    rw [h0]
    exact ih l

/-! ## Character discrimination -/

theorem isDig_ne {c x : Char} (h : isDig c = true) (hx : isDig x = false) : (c == x) = false := by
  cases hcx : c == x
  · rfl
  · have hcx' := eq_of_beq hcx
    subst hcx'
    simp [h] at hx

theorem signOf_neg (r : List Char) : signOf ('-' :: r) = -1 := by
  simp [signOf]

theorem afterSign_neg (r : List Char) : afterSign ('-' :: r) = r := by
  simp [afterSign]

theorem signOf_digit {c : Char} (h : isDig c = true) (r : List Char) : signOf (c :: r) = 1 := by
  simp [signOf, isDig_ne h (by decide : isDig '-' = false)]

theorem afterSign_digit {c : Char} (h : isDig c = true) (r : List Char) :
    afterSign (c :: r) = c :: r := by
  simp [afterSign, isDig_ne h (by decide : isDig '-' = false),
    isDig_ne h (by decide : isDig '+' = false)]

/-! ## takeWhile and dropWhile splitting -/

theorem takeWhile_all {α : Type} {p : α → Bool} :
    ∀ A : List α, (∀ c ∈ A, p c = true) → A.takeWhile p = A ∧ A.dropWhile p = [] := by
  intro A
  induction A with
  | nil => intro _; simp
  | cons a A ih =>
    intro hA
    have ha : p a = true := hA a (List.mem_cons_self a A)
    have := ih (fun c hc => hA c (List.mem_cons_of_mem a hc))
    simp [List.takeWhile_cons, List.dropWhile_cons, ha, this.1, this.2]

theorem takeWhile_split {α : Type} {p : α → Bool} :
    ∀ (A : List α) (b : α) (B : List α), (∀ c ∈ A, p c = true) → p b = false →
      (A ++ b :: B).takeWhile p = A ∧ (A ++ b :: B).dropWhile p = b :: B := by
  intro A
  induction A with
  | nil => intro b B _ hb; simp [List.takeWhile_cons, List.dropWhile_cons, hb]
  | cons a A ih =>
    intro b B hA hb
    have ha : p a = true := hA a (List.mem_cons_self a A)
    have := ih b B (fun c hc => hA c (List.mem_cons_of_mem a hc)) hb
    simp [List.takeWhile_cons, List.dropWhile_cons, ha, this.1, this.2]

theorem dropWhile_false {α : Type} {p : α → Bool} :
    ∀ l : List α, (∀ c ∈ l, p c = false) → l.dropWhile p = l := by
  intro l h
  cases l with
  | nil => rfl
  | cons a t => simp [List.dropWhile_cons, h a (List.mem_cons_self a t)]

/-! ## Denominators of parsed values divide a power of ten -/

theorem dvd_ten_pow_self (d : Nat) : ∀ M : Nat, d ∣ 10 ^ M → d ∣ 10 ^ d := by
  induction d using Nat.strong_induction_on with
  | _ d ih =>
    intro M h
    rcases Nat.lt_or_ge d 2 with hd | hd
    · interval_cases d
      · have h0 := Nat.eq_zero_of_zero_dvd h
        have : 0 < 10 ^ M := pow_pos (by norm_num) M
        omega
      · exact one_dvd _
    · have hne1 : d ≠ 1 := by omega
      have hp := Nat.minFac_prime hne1
      have hpd : d.minFac ∣ d := Nat.minFac_dvd d
      have hp10 : d.minFac ∣ 10 := hp.dvd_of_dvd_pow (hpd.trans h)
      have hp2 : 2 ≤ d.minFac := hp.two_le
      have hdp_lt : d / d.minFac < d := Nat.div_lt_self (by omega) (by omega)
      have hdp_d : d / d.minFac ∣ d := ⟨d.minFac, (Nat.div_mul_cancel hpd).symm⟩
      have ih1 : d / d.minFac ∣ 10 ^ (d / d.minFac) := ih _ hdp_lt M (hdp_d.trans h)
      have key : d ∣ 10 ^ (d / d.minFac + 1) := by
        calc d = d.minFac * (d / d.minFac) := (Nat.mul_div_cancel' hpd).symm
          _ ∣ 10 * 10 ^ (d / d.minFac) := mul_dvd_mul hp10 ih1
          _ = 10 ^ (d / d.minFac + 1) := by ring
      exact key.trans (pow_dvd_pow 10 (by omega))

theorem mkVal_den_dvd (sgn : Int) (I F fl : Nat) (e : Int) :
    (mkVal sgn I F fl e).den ∣ 10 ^ (mkVal sgn I F fl e).den := by
  have key : ∀ (A : Int) (M : Nat),
      (mkRat A (10 ^ M)).den ∣ 10 ^ (mkRat A (10 ^ M)).den := by
    intro A M
    have h1 : ((mkRat A (10 ^ M)).den : Int) ∣ ((10 ^ M : Nat) : Int) := by
      rw [Rat.mkRat_eq_divInt]
      exact Rat.den_dvd A ((10 ^ M : Nat) : Int)
    exact dvd_ten_pow_self _ M (Int.natCast_dvd_natCast.mp h1)
  unfold mkVal
  split
  · exact key _ _
  · exact key _ _

theorem mkRat_eq_self {q : ℚ} {X K : Nat} (h : X * q.den = q.num.natAbs * 10 ^ K) :
    mkRat ((if q.num < 0 then -1 else 1) * (X : Int)) (10 ^ K) = q := by
  have hcast : (X : Int) * (q.den : Int) = (q.num.natAbs : Int) * ((10 ^ K : Nat) : Int) := by
    exact_mod_cast h
  have hz : ((if q.num < 0 then -1 else 1) * (X : Int)) * (q.den : Int) =
      q.num * ((10 ^ K : Nat) : Int) := by
    split_ifs with hneg
    · have habs : (q.num.natAbs : Int) = -q.num := by omega
      rw [habs] at hcast
      calc (-1 * (X : Int)) * (q.den : Int) = -((X : Int) * (q.den : Int)) := by ring
        _ = -(-q.num * ((10 ^ K : Nat) : Int)) := by rw [hcast]
        _ = q.num * ((10 ^ K : Nat) : Int) := by ring
    · have habs : (q.num.natAbs : Int) = q.num := by omega
      rw [habs] at hcast
      rw [one_mul]
      exact hcast
  have hKne : ((10 ^ K : Nat) : ℚ) ≠ 0 := by
    exact_mod_cast pow_ne_zero K (by norm_num : (10 : ℚ) ≠ 0)
  have hdne : ((q.den : Nat) : ℚ) ≠ 0 := Nat.cast_ne_zero.mpr q.den_ne_zero
  rw [Rat.mkRat_eq_div]
  conv_rhs => rw [← Rat.num_div_den q]
  rw [div_eq_div_iff hKne hdne]
  exact_mod_cast hz

theorem mkVal_zero_exp (sgn : Int) (I F fl : Nat) :
    mkVal sgn I F fl 0 = mkRat (sgn * ((I * 10 ^ fl + F : Nat) : Int)) (10 ^ fl) := by
  rw [mkVal, if_pos le_rfl]
  norm_num

theorem classify_fin {x q : ℚ} (h : classify x = PNum.fin q) :
    q = x ∧ ¬floatMax < x ∧ ¬x < -floatMax := by
  rw [classify] at h
  split_ifs at h with h1 h2
  exact ⟨(PNum.fin.inj h).symm, h1, h2⟩

theorem toLower_digit {a : Char} (h : isDig a = true) : Char.toLower a = a := by
  have hb : 48 ≤ a.toNat ∧ a.toNat ≤ 57 := by simpa [isDig] using h
  simp only [Char.toLower]
  rw [if_neg (by omega)]

theorem isInfWord_cons_digit {a : Char} (h : isDig a = true) (r : List Char) :
    isInfWord (a :: r) = false := by
  have hl := toLower_digit h
  have hi : a ≠ 'i' := fun he => by rw [he] at h; exact absurd h (by decide)
  have h3 : ("inf".data : List Char) = ['i', 'n', 'f'] := rfl
  have h8 : ("infinity".data : List Char) = ['i', 'n', 'f', 'i', 'n', 'i', 't', 'y'] := rfl
  simp [isInfWord, hl, hi, h3, h8]

theorem parseNumL_fin {l : List Char} {q : ℚ} (h : parseNumL l = some (PNum.fin q)) :
    q.den ∣ 10 ^ q.den ∧ ¬floatMax < q ∧ ¬q < -floatMax := by
  simp only [parseNumL] at h
  split at h
  · split at h <;> simp at h
  · split at h
    · split at h
      · split at h
        · exact absurd h (by simp)
        · rw [Option.map_eq_some'] at h
          obtain ⟨e, -, hq⟩ := h
          obtain ⟨rfl, hub, hlb⟩ := classify_fin hq
          exact ⟨mkVal_den_dvd _ _ _ _ _, hub, hlb⟩
      · split at h
        · exact absurd h (by simp)
        · rw [Option.map_eq_some'] at h
          obtain ⟨e, -, hq⟩ := h
          obtain ⟨rfl, hub, hlb⟩ := classify_fin hq
          exact ⟨mkVal_den_dvd _ _ _ _ _, hub, hlb⟩
    · split at h
      · exact absurd h (by simp)
      · rw [Option.map_eq_some'] at h
        obtain ⟨e, -, hq⟩ := h
        obtain ⟨rfl, hub, hlb⟩ := classify_fin hq
        exact ⟨mkVal_den_dvd _ _ _ _ _, hub, hlb⟩

theorem parseNum_fin {s : String} {q : ℚ} (h : parseNum s = some (PNum.fin q)) :
    q.den ∣ 10 ^ q.den ∧ ¬floatMax < q ∧ ¬q < -floatMax :=
  parseNumL_fin h

/-! ## Parsing a printed decimal -/

theorem parseNumL_decimal (n : Int) (A Fr : List Char)
    (hA : ∀ c ∈ A, isDig c = true) (hAne : A ≠ [])
    (hFr : ∀ c ∈ Fr, isDig c = true) :
    parseNumL (signChars n ++ (A ++ '.' :: Fr)) =
      some (classify
        (mkVal (if n < 0 then -1 else 1) (digitsToNat A) (digitsToNat Fr) Fr.length 0)) := by
  obtain ⟨a, A', rfl⟩ := List.exists_cons_of_ne_nil hAne
  have ha : isDig a = true := hA a (List.mem_cons_self a A')
  have hsplit := takeWhile_split (a :: A') '.' Fr hA (by decide)
  have hsplit' : (a :: (A' ++ '.' :: Fr)).takeWhile isDig = a :: A' ∧
      (a :: (A' ++ '.' :: Fr)).dropWhile isDig = '.' :: Fr := by
    simpa using hsplit
  have hfr := takeWhile_all Fr hFr
  have hinf := isInfWord_cons_digit ha (A' ++ '.' :: Fr)
  by_cases hneg : n < 0
  · rw [if_pos hneg, signChars, if_pos hneg]
    have hS : ['-'] ++ ((a :: A') ++ '.' :: Fr) = '-' :: (a :: (A' ++ '.' :: Fr)) := by simp
    rw [hS]
    simp only [parseNumL, signOf_neg, afterSign_neg, hinf, Bool.false_eq_true, if_false,
      hsplit'.1, hsplit'.2]
    simp only [beq_self_eq_true, if_true, hfr.1, hfr.2, List.isEmpty_cons, Bool.false_and,
      Bool.false_eq_true, if_false, parseExp, Option.map_some']
  · rw [if_neg hneg, signChars, if_neg hneg]
    have hS : ([] : List Char) ++ ((a :: A') ++ '.' :: Fr) = a :: (A' ++ '.' :: Fr) := by simp
    rw [hS]
    simp only [parseNumL, signOf_digit ha, afterSign_digit ha, hinf, Bool.false_eq_true,
      if_false, hsplit'.1, hsplit'.2]
    simp only [beq_self_eq_true, if_true, hfr.1, hfr.2, List.isEmpty_cons, Bool.false_and,
      Bool.false_eq_true, if_false, parseExp, Option.map_some']

theorem mem_fracChars {k m : Nat} {c : Char} (hc : c ∈ fracChars k m) : isDig c = true := by
  rw [fracChars] at hc
  rcases List.mem_append.mp hc with h | h
  · rw [List.eq_of_mem_replicate h]; decide
  · rw [natDigitsBE] at h
    exact mem_natDigitsAux m m c (List.mem_reverse.mp h)

theorem parse_pyFloatStr {q : ℚ} (hq : q.den ∣ 10 ^ q.den)
    (hub : ¬floatMax < q) (hlb : ¬q < -floatMax) :
    parseNum (pyFloatStr q) = some (PNum.fin q) := by
  have hclass : classify q = PNum.fin q := by
    rw [classify, if_neg hub, if_neg hlb]
  by_cases h1 : q.den = 1
  · have hstr : pyFloatStr q =
        String.mk (signChars q.num ++ (natChars q.num.natAbs ++ '.' :: ['0'])) := by
      rw [pyFloatStr, if_pos h1]
      congr 1
      simp [intChars, List.append_assoc]
    rw [hstr]
    show parseNumL (signChars q.num ++ (natChars q.num.natAbs ++ '.' :: ['0'])) =
      some (PNum.fin q)
    rw [parseNumL_decimal q.num _ _ mem_natChars (natChars_ne_nil _) (by decide)]
    congr 1
    have h0 : digitsToNat ['0'] = 0 := by decide
    have hl : (['0'] : List Char).length = 1 := rfl
    rw [digitsToNat_natChars, h0, hl, mkVal_zero_exp,
      mkRat_eq_self (show (q.num.natAbs * 10 ^ 1 + 0) * q.den = q.num.natAbs * 10 ^ 1 by
        rw [h1]; ring)]
    exact hclass
  · have hstr : pyFloatStr q = String.mk (signChars q.num ++
        (natChars (q.num.natAbs * (10 ^ q.den / q.den) / 10 ^ q.den) ++
         '.' :: fracChars q.den (q.num.natAbs * (10 ^ q.den / q.den) % 10 ^ q.den))) := by
      rw [pyFloatStr, if_neg h1, if_pos hq]
      congr 1
      simp [List.append_assoc]
    rw [hstr]
    show parseNumL _ = some (PNum.fin q)
    rw [parseNumL_decimal q.num _ _ mem_natChars (natChars_ne_nil _)
      (fun c hc => mem_fracChars hc)]
    congr 1
    set m := q.num.natAbs * (10 ^ q.den / q.den) with hm
    have hfp_lt : m % 10 ^ q.den < 10 ^ q.den := Nat.mod_lt _ (pow_pos (by norm_num) _)
    have hlen : (fracChars q.den (m % 10 ^ q.den)).length = q.den := by
      rw [fracChars, List.length_append, List.length_replicate]
      have := length_natDigitsBE_le hfp_lt
      omega
    have hval : digitsToNat (fracChars q.den (m % 10 ^ q.den)) = m % 10 ^ q.den := by
      rw [fracChars, digitsToNat_replicate_zero, digitsToNat_natDigitsBE]
    have hX : (m / 10 ^ q.den * 10 ^ q.den + m % 10 ^ q.den) * q.den =
        q.num.natAbs * 10 ^ q.den := by
      have hdm : m / 10 ^ q.den * 10 ^ q.den + m % 10 ^ q.den = m := by
        rw [Nat.mul_comm]
        exact Nat.div_add_mod m (10 ^ q.den)
      rw [hdm, hm, mul_assoc, Nat.div_mul_cancel hq]
    rw [digitsToNat_natChars, hval, hlen, mkVal_zero_exp, mkRat_eq_self hX]
    exact hclass

/-! ## The printed number survives the revenue-cell string pipeline -/

theorem mk_data_eq (l : List Char) : (String.mk l).data = l := rfl

theorem signChars_mem {n : Int} {c : Char} (hc : c ∈ signChars n) : c = '-' := by
  rw [signChars] at hc
  split at hc
  · simpa using hc
  · simp at hc

theorem pyFloatStr_mem {q : ℚ} {c : Char} (hc : c ∈ (pyFloatStr q).data) :
    isDig c = true ∨ c = '-' ∨ c = '.' ∨ c = '<' ∨ c = '>' ∨ c = '/' := by
  rw [pyFloatStr] at hc
  split at hc
  · rw [mk_data_eq] at hc
    rcases List.mem_append.mp hc with h | h
    · rw [intChars] at h
      rcases List.mem_append.mp h with h | h
      · exact Or.inr (Or.inl (signChars_mem h))
      · exact Or.inl (mem_natChars c h)
    · rcases List.mem_cons.mp h with h | h
      · subst h; right; right; left; rfl
      · simp at h; subst h; left; decide
  · split at hc
    · rw [mk_data_eq] at hc
      rcases List.mem_append.mp hc with h | h
      · rcases List.mem_append.mp h with h | h
        · exact Or.inr (Or.inl (signChars_mem h))
        · exact Or.inl (mem_natChars c h)
      · rcases List.mem_cons.mp h with h | h
        · subst h; right; right; left; rfl
        · exact Or.inl (mem_fracChars h)
    · rw [mk_data_eq] at hc
      rcases List.mem_cons.mp hc with h | h
      · subst h; right; right; right; left; rfl
      · rcases List.mem_append.mp h with h | h
        · rcases List.mem_append.mp h with h | h
          · rw [intChars] at h
            rcases List.mem_append.mp h with h | h
            · exact Or.inr (Or.inl (signChars_mem h))
            · exact Or.inl (mem_natChars c h)
          · rcases List.mem_cons.mp h with h | h
            · subst h; right; right; right; right; right; rfl
            · exact Or.inl (mem_natChars c h)
        · simp at h; subst h; right; right; right; right; left; rfl

theorem char_not_money_not_spc {c : Char}
    (h : isDig c = true ∨ c = '-' ∨ c = '.' ∨ c = '<' ∨ c = '>' ∨ c = '/') :
    (c == '$' || c == ',') = false ∧ isSpc c = false := by
  rcases h with h | rfl | rfl | rfl | rfl | rfl
  · refine ⟨?_, ?_⟩
    · simp [isDig_ne h (by decide : isDig '$' = false),
        isDig_ne h (by decide : isDig ',' = false)]
    · rw [isSpc]
      simp [isDig_ne h (by decide : isDig ' ' = false),
        isDig_ne h (by decide : isDig '\t' = false),
        isDig_ne h (by decide : isDig '\n' = false),
        isDig_ne h (by decide : isDig '\r' = false),
        isDig_ne h (by decide : isDig '\x0b' = false),
        isDig_ne h (by decide : isDig '\x0c' = false)]
  · decide
  · decide
  · decide
  · decide
  · decide

theorem stripMoney_id {s : String} (h : ∀ c ∈ s.data, (c == '$' || c == ',') = false) :
    stripMoney s = s := by
  rw [stripMoney]
  have hf : s.data.filter (fun c => !(c == '$' || c == ',')) = s.data :=
    List.filter_eq_self.mpr (fun a ha => by rw [h a ha]; rfl)
  rw [hf]

theorem pyStrip_id {s : String} (h : ∀ c ∈ s.data, isSpc c = false) : pyStrip s = s := by
  rw [pyStrip, dropWhile_false _ h,
    dropWhile_false _ (fun c hc => h c (List.mem_reverse.mp hc)), List.reverse_reverse]

theorem cleanCellStr_num (q : ℚ) : cleanCellStr (Cell.num (PNum.fin q)) = pyFloatStr q := by
  show pyStrip (stripMoney (pyFloatStr q)) = pyFloatStr q
  rw [stripMoney_id (fun c hc => (char_not_money_not_spc (pyFloatStr_mem hc)).1),
    pyStrip_id (fun c hc => (char_not_money_not_spc (pyFloatStr_mem hc)).2)]

theorem pyFloatStr_ne_empty (q : ℚ) : pyFloatStr q ≠ "" := by
  rw [pyFloatStr]
  split_ifs <;> intro h <;> simpa using congrArg String.data h

/-! ## The date normalizer: matches are fixed points, and the scan is the
leftmost-position search of the specification -/

theorem shape4_length {t : List Char} (h : shape4 t = true) : t.length = 4 := by
  rcases t with _ | ⟨a, _ | ⟨b, _ | ⟨c, _ | ⟨d, _ | ⟨e, t⟩⟩⟩⟩⟩ <;> simp [shape4] at h ⊢

theorem shape7_length {t : List Char} (h : shape7 t = true) : t.length = 7 := by
  rcases t with _ | ⟨a, _ | ⟨b, _ | ⟨c, _ | ⟨d, _ | ⟨e, _ | ⟨f, _ | ⟨g, _ | ⟨h8, t⟩⟩⟩⟩⟩⟩⟩⟩ <;>
    simp [shape7] at h ⊢

theorem shape10_length {t : List Char} (h : shape10 t = true) : t.length = 10 := by
  rcases t with _ | ⟨a, _ | ⟨b, _ | ⟨c, _ | ⟨d, _ | ⟨e, _ | ⟨f, _ | ⟨g, _ | ⟨h8, _ |
    ⟨i, _ | ⟨j, _ | ⟨k, t⟩⟩⟩⟩⟩⟩⟩⟩⟩⟩⟩ <;> simp [shape10] at h ⊢

theorem isDateShape_ne_nil {t : List Char} (h : isDateShape t = true) : t ≠ [] := by
  rw [isDateShape, Bool.or_eq_true, Bool.or_eq_true] at h
  rcases h with (h | h) | h
  · have := shape10_length h
    intro he; subst he; simp at this
  · have := shape7_length h
    intro he; subst he; simp at this
  · have := shape4_length h
    intro he; subst he; simp at this

theorem try4_self {m : List Char} (h : isDateShape m = true) : try4 m = some m := by
  rw [isDateShape, Bool.or_eq_true, Bool.or_eq_true] at h
  rcases h with (h | h) | h
  · have hl := shape10_length h
    rw [try4, List.take_of_length_le (by omega), if_pos h]
  · have hl := shape7_length h
    have h10 : shape10 (m.take 10) = false := by
      rw [List.take_of_length_le (by omega)]
      cases hx : shape10 m
      · rfl
      · have := shape10_length hx
        omega
    rw [try4, if_neg (by simp [h10]), List.take_of_length_le (by omega : m.length ≤ 7),
      if_pos h]
  · have hl := shape4_length h
    have h10 : shape10 (m.take 10) = false := by
      rw [List.take_of_length_le (by omega)]
      cases hx : shape10 m
      · rfl
      · have := shape10_length hx
        omega
    have h7 : shape7 (m.take 7) = false := by
      rw [List.take_of_length_le (by omega)]
      cases hx : shape7 m
      · rfl
      · have := shape7_length hx
        omega
    rw [try4, if_neg (by simp [h10]), if_neg (by simp [h7]),
      List.take_of_length_le (by omega : m.length ≤ 4), if_pos h]

theorem try4_shape {l m : List Char} (h : try4 l = some m) : isDateShape m = true := by
  rw [try4] at h
  split_ifs at h with h10 h7 h4
  · cases h; simp [isDateShape, h10]
  · cases h; simp [isDateShape, h7]
  · cases h; simp [isDateShape, h4]

theorem findDate_fix {l m : List Char} (h : findDate l = some m) :
    try4 m = some m ∧ m ≠ [] := by
  induction l with
  | nil => simp [findDate] at h
  | cons c t ih =>
    rw [findDate] at h
    cases htry : try4 (c :: t) with
    | some m' =>
      rw [htry] at h
      cases h
      exact ⟨try4_self (try4_shape htry), isDateShape_ne_nil (try4_shape htry)⟩
    | none =>
      rw [htry] at h
      exact ih h

theorem normDate_idem (s : String) : normDate (normDate s) = normDate s := by
  cases hf : findDate s.data with
  | none =>
    have h1 : normDate s = s := by simp only [normDate, hf]
    rw [h1]
    exact h1
  | some m =>
    have h1 : normDate s = String.mk m := by simp only [normDate, hf]
    rw [h1]
    obtain ⟨ht, hne⟩ := findDate_fix hf
    obtain ⟨c, t, hm⟩ := List.exists_cons_of_ne_nil hne
    have h2 : findDate (String.mk m).data = some m := by
      show findDate m = some m
      rw [hm, findDate, ← hm, ht]
    simp only [normDate, h2]

theorem try4_eq_matchAtPos (l : List Char) : try4 l = matchAtPos l 0 := by
  simp [try4, matchAtPos, subAt]

theorem matchAtPos_succ (c : Char) (rest : List Char) (i : Nat) :
    matchAtPos (c :: rest) (i + 1) = matchAtPos rest i := by
  simp [matchAtPos, subAt, List.drop_succ_cons]

theorem findDate_eq_spec : ∀ l : List Char,
    findDate l = (List.range (l.length + 1)).findSome? (fun i => matchAtPos l i) := by
  intro l
  induction l with
  | nil => rfl
  | cons c rest ih =>
    have hlen : (c :: rest).length + 1 = (rest.length + 1) + 1 := rfl
    rw [hlen, List.range_succ_eq_map, List.findSome?_cons]
    simp only [← try4_eq_matchAtPos]
    cases htry : try4 (c :: rest) with
    | some m => simp [findDate, htry]
    | none =>
      simp only [findDate, htry, ih, List.findSome?_map]
      congr 1

theorem normDate_eq_specNormDate (s : String) : normDate s = specNormDate s := by
  rw [normDate, specNormDate, findDate_eq_spec]

/-! ## The cleaner: selected column indices are in range, and the main branch -/

theorem firstIdx_lt {α : Type} {p : α → Bool} :
    ∀ {l : List α} {i : Nat}, firstIdx p l = some i → i < l.length := by
  intro l
  induction l with
  | nil => intro i h; simp [firstIdx] at h
  | cons a t ih =>
    intro i h
    rw [firstIdx] at h
    split_ifs at h with hp
    · cases h; simp
    · rw [Option.map_eq_some'] at h
      obtain ⟨j, hj, rfl⟩ := h
      have := ih hj
      simp only [List.length_cons]
      omega

theorem dateIdxOf_lt {cols : List String} (h : cols ≠ []) : dateIdxOf cols < cols.length := by
  rw [dateIdxOf]
  cases hfi : firstIdx (fun c => containsSub c "date" || containsSub c "period")
      (cols.map strLower) with
  | none =>
    simp only [Option.getD_none]
    exact List.length_pos.mpr h
  | some i =>
    simp only [Option.getD_some]
    simpa using firstIdx_lt hfi

theorem revIdxOf_lt {cols : List String} (h : cols ≠ []) : revIdxOf cols < cols.length := by
  rw [revIdxOf]
  cases hfi : firstIdx (fun c => containsSub c "revenue") (cols.map strLower) with
  | none =>
    simp only [Option.getD_none]
    split_ifs with h1
    · omega
    · exact List.length_pos.mpr h
  | some i =>
    simp only [Option.getD_some]
    simpa using firstIdx_lt hfi

theorem clean_some_eq {df : RawTable} (hr : df.rows ≠ []) (hc : df.cols ≠ []) :
    cleanRevenueTable (some df) =
      some ⟨["Date", "Revenue"], df.rows.filterMap (fun r =>
        rowClean (cellAt r (dateIdxOf df.cols)) (cellAt r (revIdxOf df.cols)))⟩ := by
  simp only [cleanRevenueTable]
  rw [if_neg (by simp [hr, hc]), if_pos ⟨dateIdxOf_lt hc, revIdxOf_lt hc⟩]

theorem rowClean_some {d r : Cell} {row : List Cell} (h : rowClean d r = some row) :
    ∃ q, parseNum (cleanCellStr r) = some q ∧
      row = [Cell.str (normDate (pyStr d)), Cell.num q] := by
  rw [rowClean] at h
  split_ifs at h with h1 h2
  · cases hp : parseNum (cleanCellStr r) with
    | none => rw [hp] at h; simp at h
    | some q =>
      rw [hp] at h
      cases h
      exact ⟨q, rfl, rfl⟩

theorem filterMap_fixed {α : Type} {f : α → Option α} :
    ∀ l : List α, (∀ x ∈ l, f x = some x) → l.filterMap f = l := by
  intro l
  induction l with
  | nil => intro _; rfl
  | cons a t ih =>
    intro h
    have ht := ih (fun x hx => h x (List.mem_cons_of_mem a hx))
    simp [List.filterMap_cons, h a (List.mem_cons_self a t), ht]

theorem filterMap_arrangement {α β : Type} (f : α → Option β) :
    ∀ l : List α, ∃ src : List α, src.Sublist l ∧
      List.Forall₂ (fun a b => f a = some b) src (l.filterMap f) := by
  intro l
  induction l with
  | nil => exact ⟨[], List.Sublist.refl _, by simp⟩
  | cons a t ih =>
    obtain ⟨src, hsub, hfa⟩ := ih
    cases hfa0 : f a with
    | none =>
      refine ⟨src, hsub.cons a, ?_⟩
      rw [List.filterMap_cons_none hfa0]
      exact hfa
    | some b =>
      refine ⟨a :: src, hsub.cons₂ a, ?_⟩
      rw [List.filterMap_cons_some hfa0]
      exact List.Forall₂.cons hfa0 hfa

theorem rowClean_fix {ds : String} {v : PNum} {s0 : String} (hv : parseNum s0 = some v) :
    rowClean (Cell.str (normDate ds)) (Cell.num v) =
      some [Cell.str (normDate ds), Cell.num v] := by
  cases v with
  | fin q =>
    obtain ⟨hdvd, hub, hlb⟩ := parseNum_fin hv
    rw [rowClean, cleanCellStr_num, if_neg (by simp), if_neg (pyFloatStr_ne_empty q),
      parse_pyFloatStr hdvd hub hlb]
    show some [Cell.str (normDate (normDate ds)), Cell.num (PNum.fin q)] = _
    rw [normDate_idem]
  | pinf =>
    rw [rowClean, if_neg (by simp), if_neg (by decide),
      (by decide : parseNum (cleanCellStr (Cell.num PNum.pinf)) = some PNum.pinf)]
    show some [Cell.str (normDate (normDate ds)), Cell.num PNum.pinf] = _
    rw [normDate_idem]
  | ninf =>
    rw [rowClean, if_neg (by simp), if_neg (by decide),
      (by decide : parseNum (cleanCellStr (Cell.num PNum.ninf)) = some PNum.ninf)]
    show some [Cell.str (normDate (normDate ds)), Cell.num PNum.ninf] = _
    rw [normDate_idem]

/-! # The claims -/

/-- C5: `clean_revenue_table` is total: for every input (including `None`,
malformed cells, mismatched column counts or a single column) it raises no
exception and returns a table with the canonical columns; in the worst case
that table is empty. -/
theorem cleanRevenueTable_total (df? : Option RawTable) :
    ∃ out : RawTable, cleanRevenueTable df? = some out ∧ out.cols = ["Date", "Revenue"] := by
  cases df? with
  | none => exact ⟨emptyOut, rfl, rfl⟩
  | some df =>
    by_cases he : df.rows = [] ∨ df.cols = []
    · refine ⟨emptyOut, ?_, rfl⟩
      simp only [cleanRevenueTable]
      rw [if_pos he]
    · push_neg at he
      exact ⟨_, clean_some_eq he.1 he.2, rfl⟩

/-- C6: on a `None` input or an input with zero rows, `clean_revenue_table`
returns a table with exactly zero rows and exactly the canonical columns
`Date` and `Revenue`. -/
theorem cleanRevenueTable_empty :
    cleanRevenueTable none = some emptyOut ∧
    (∀ cols : List String, cleanRevenueTable (some ⟨cols, []⟩) = some emptyOut) ∧
    emptyOut.cols = ["Date", "Revenue"] ∧ emptyOut.rows = [] := by
  refine ⟨rfl, ?_, rfl, rfl⟩
  intro cols
  simp [cleanRevenueTable]

/-- C9 (the code at the failing input): with no site-specific table and no
tables in the document at all, `pd.read_html` raises `ValueError("No tables
found")` instead of handing the code an empty list, so `get_revenue_table`
raises (`none`) rather than return the empty RevenueTable its dead
`if not candidates` branch was written to produce. -/
theorem getRevenueTable_no_tables :
    getRevenueTable ⟨none, []⟩ = none := by
  decide

/-- C7: end to end, a page whose only table has header `["Date", "Revenue"]`
and rows `[["2023-12-31", "$1,000"], ["", ""], ["2023-09-30", "abc"]]` yields
exactly one record, period `"2023-12-31"` with revenue 1000: the all-empty
row and the non-numeric row are both dropped. -/
theorem getRevenueTable_end_to_end :
    getRevenueTable sampleDoc =
      some ⟨["Date", "Revenue"], [[Cell.str "2023-12-31", Cell.num (PNum.fin 1000)]]⟩ := by
  decide

theorem find?_eq_filter_head {α : Type} {p : α → Bool} :
    ∀ l : List α, l.find? p = (l.filter p).head? := by
  intro l
  induction l with
  | nil => rfl
  | cons a t ih =>
    cases hp : p a with
    | true => rw [List.find?_cons_of_pos t hp, List.filter_cons_of_pos hp, List.head?_cons]
    | false =>
      rw [List.find?_cons_of_neg t (by simp [hp]), List.filter_cons_of_neg (by simp [hp]), ih]

/-- C3: with the site-specific table absent, the generic fallback keeps
exactly the discovered tables with at least two columns and a column name
containing `"revenue"` case-insensitively, and hands the first such table to
the cleaner. -/
theorem fallback_keeps_revenue_tables :
    (∀ (ts : List RawTable) (t : RawTable),
      t ∈ revenueCandidates ts ↔ t ∈ ts ∧ revenuePred t = true) ∧
    (∀ (ts : List RawTable) (t : RawTable), ts.find? revenuePred = some t →
      getRevenueTable ⟨none, ts⟩ = cleanRevenueTable (some t)) := by
  constructor
  · intro ts t
    exact List.mem_filter
  · intro ts t hf
    have hts : ts ≠ [] := by
      intro he
      subst he
      simp at hf
    have h1 : (revenueCandidates ts).head? = some t := by
      rw [revenueCandidates, ← find?_eq_filter_head]
      exact hf
    cases hrc : revenueCandidates ts with
    | nil => rw [hrc] at h1; simp at h1
    | cons x xs =>
      rw [hrc] at h1
      rw [List.head?_cons] at h1
      cases h1
      simp only [getRevenueTable]
      rw [if_neg hts, hrc]

/-- C3 (witness): among three generic tables where only the second has a
column named `Total Revenue`, the second is selected. -/
theorem fallback_keeps_revenue_tables_witness :
    getRevenueTable ⟨none, [genTableA, genTableB, genTableC]⟩ =
      cleanRevenueTable (some genTableB) :=
  fallback_keeps_revenue_tables.2 [genTableA, genTableB, genTableC] genTableB (by decide)

/-- C8: the revenue cell pipeline strips `$` and `,`, trims whitespace and
converts; the cell `"$1,234,500"` yields 1234500; a row whose revenue cell
fails conversion is dropped (never defaulted to zero), and every surviving
row carries the parsed number. -/
theorem revenue_cell_pipeline :
    parseNum (pyStrip (stripMoney "$1,234,500")) = some (PNum.fin 1234500) ∧
    (∀ d r : Cell, parseNum (cleanCellStr r) = none → rowClean d r = none) ∧
    (∀ (d r : Cell) (row : List Cell), rowClean d r = some row →
      ∃ v, parseNum (cleanCellStr r) = some v ∧
        row = [Cell.str (normDate (pyStr d)), Cell.num v]) := by
  refine ⟨by decide, ?_, ?_⟩
  · intro d r hp
    rw [rowClean]
    split_ifs with h1 h2
    · rfl
    · rfl
    · rw [hp]
  · intro d r row h
    exact rowClean_some h

/-- C8 (witness): the non-numeric cell `"abc"` drops its row. -/
theorem revenue_cell_pipeline_witness :
    rowClean (Cell.str "2021") (Cell.str "abc") = none :=
  revenue_cell_pipeline.2.1 (Cell.str "2021") (Cell.str "abc") (by decide)

/-- C1 (counterexample): a table with a detectable date and revenue column
whose revenue cell is `"-5"` comes back with the negative value `-5` in its
only row, so not every returned revenue is non-negative; and the revenue
cell `"inf"` comes back as positive infinity, so not every returned revenue
is finite either. -/
theorem clean_negative_revenue_cex :
    hasDateCol sampleNegTable.cols = true ∧ hasRevCol sampleNegTable.cols = true ∧
    cleanRevenueTable (some sampleNegTable) =
      some ⟨["Date", "Revenue"], [[Cell.str "2021", Cell.num (PNum.fin (-5))]]⟩ ∧
    (-5 : ℚ) < 0 ∧
    cleanRevenueTable (some sampleInfTable) =
      some ⟨["Date", "Revenue"], [[Cell.str "2021", Cell.num PNum.pinf]]⟩ := by
  decide

/-- C1 (amended): for an input with a detectable revenue-like and date-like
column, every row of the result holds a date string and a revenue value on
which the numeric parse succeeded — not NaN, but possibly negative and
possibly one of the infinities. -/
theorem clean_rows_parsed (df out : RawTable)
    (hdate : hasDateCol df.cols = true) (hrev : hasRevCol df.cols = true)
    (h : cleanRevenueTable (some df) = some out) :
    ∀ row ∈ out.rows, ∃ (ds : String) (v : PNum),
      row = [Cell.str ds, Cell.num v] ∧ ∃ s : String, parseNum s = some v := by
  by_cases he : df.rows = [] ∨ df.cols = []
  · have h0 : cleanRevenueTable (some df) = some emptyOut := by
      simp only [cleanRevenueTable]
      rw [if_pos he]
    rw [h0] at h
    have hout : out = emptyOut := (Option.some.inj h).symm
    rw [hout]
    intro row hrow
    simp [emptyOut] at hrow
  · push_neg at he
    rw [clean_some_eq he.1 he.2] at h
    have hout := (Option.some.inj h).symm
    rw [hout]
    intro row hrow
    obtain ⟨r, hr, hrc⟩ := List.mem_filterMap.mp hrow
    obtain ⟨v, hpv, rfl⟩ := rowClean_some hrc
    exact ⟨normDate (pyStr (cellAt r (dateIdxOf df.cols))), v, rfl,
      cleanCellStr (cellAt r (revIdxOf df.cols)), hpv⟩

/-- C1 (witness): the amended claim at a concrete table. -/
theorem clean_rows_parsed_witness :
    ∃ (ds : String) (v : PNum),
      ([Cell.str "2021-03-31", Cell.num (PNum.fin 5)] : List Cell) =
        [Cell.str ds, Cell.num v] ∧
      ∃ s : String, parseNum s = some v :=
  clean_rows_parsed sampleTable sampleTableOut (by decide) (by decide) (by decide)
    [Cell.str "2021-03-31", Cell.num (PNum.fin 5)] (by decide)

/-- C2 (counterexample): in the cell `"2019 to 2020-01-02"`, the longest
date-like match anywhere is `"2020-01-02"`, but the code keeps `"2019"`, the
leftmost match: the cell is not replaced by the longest match anywhere. -/
theorem normDate_longest_cex :
    normDate "2019 to 2020-01-02" = "2019" ∧
    specLongestAnywhere "2019 to 2020-01-02" = some "2020-01-02" ∧
    normDate "2019 to 2020-01-02" ≠
      (specLongestAnywhere "2019 to 2020-01-02").getD "2019 to 2020-01-02" := by
  decide

/-- C2 (amended): every date cell is replaced by the match at the leftmost
position where the year pattern matches, taking the longest of the three
forms at that position, and is left unchanged when no match occurs; in
particular `"Sep 30, 2021"` normalizes to `"2021"` and `"2021-09-30"` to
itself. -/
theorem normDate_leftmost_longest :
    (∀ s : String, normDate s = specNormDate s) ∧
    normDate "Sep 30, 2021" = "2021" ∧ normDate "2021-09-30" = "2021-09-30" :=
  ⟨normDate_eq_specNormDate, by decide, by decide⟩

/-- C4: `clean_revenue_table` is idempotent: reapplied to its own output it
returns that output unchanged (same canonical columns, numeric revenue
values, normalized date strings and row order). -/
theorem clean_idempotent (df? : Option RawTable) (out : RawTable)
    (h : cleanRevenueTable df? = some out) :
    cleanRevenueTable (some out) = some out := by
  cases df? with
  | none =>
    have hout : out = emptyOut := (Option.some.inj h).symm
    rw [hout]
    decide
  | some df =>
    by_cases he : df.rows = [] ∨ df.cols = []
    · have h0 : cleanRevenueTable (some df) = some emptyOut := by
        simp only [cleanRevenueTable]
        rw [if_pos he]
      rw [h0] at h
      have hout : out = emptyOut := (Option.some.inj h).symm
      rw [hout]
      decide
    · push_neg at he
      rw [clean_some_eq he.1 he.2] at h
      have hout := (Option.some.inj h).symm
      rcases hL : df.rows.filterMap (fun r =>
          rowClean (cellAt r (dateIdxOf df.cols)) (cellAt r (revIdxOf df.cols))) with _ | ⟨row, L⟩
      · rw [hout, hL]
        decide
      · rw [hout, hL]
        rw [clean_some_eq (by simp) (by simp)]
        have hd0 : dateIdxOf ["Date", "Revenue"] = 0 := by decide
        have hr1 : revIdxOf ["Date", "Revenue"] = 1 := by decide
        rw [hd0, hr1]
        have hfix : (row :: L).filterMap (fun r => rowClean (cellAt r 0) (cellAt r 1)) =
            row :: L := by
          apply filterMap_fixed
          intro x hx
          rw [← hL] at hx
          obtain ⟨r, hr, hrc⟩ := List.mem_filterMap.mp hx
          obtain ⟨v, hpv, rfl⟩ := rowClean_some hrc
          exact rowClean_fix hpv
        rw [hfix]

/-- C4 (witness): idempotence at a concrete output table. -/
theorem clean_idempotent_witness :
    cleanRevenueTable (some sampleTableOut) = some sampleTableOut :=
  clean_idempotent (some sampleTable) sampleTableOut (by decide)

/-- C10: on a non-empty input the output has exactly the two canonical
columns, at most as many rows as the input, and its rows are derived one
each from a subsequence of the input rows, in the input's relative order. -/
theorem clean_shape_subsequence (df out : RawTable)
    (hne : df.rows ≠ []) (h : cleanRevenueTable (some df) = some out) :
    out.cols = ["Date", "Revenue"] ∧ out.rows.length ≤ df.rows.length ∧
    ∃ src : List (List Cell), src.Sublist df.rows ∧
      List.Forall₂ (fun r o => rowClean (cellAt r (dateIdxOf df.cols))
        (cellAt r (revIdxOf df.cols)) = some o) src out.rows := by
  by_cases hc : df.cols = []
  · have h0 : cleanRevenueTable (some df) = some emptyOut := by
      simp only [cleanRevenueTable]
      rw [if_pos (Or.inr hc)]
    rw [h0] at h
    have hout : out = emptyOut := (Option.some.inj h).symm
    rw [hout]
    exact ⟨rfl, by simp [emptyOut], [], List.nil_sublist _, by simp [emptyOut]⟩
  · rw [clean_some_eq hne hc] at h
    have hout := (Option.some.inj h).symm
    rw [hout]
    exact ⟨rfl, List.length_filterMap_le _ _, filterMap_arrangement _ df.rows⟩

/-- C10 (witness): the shape and provenance claim at a concrete table. -/
theorem clean_shape_subsequence_witness :
    sampleTableOut.cols = ["Date", "Revenue"] ∧
    sampleTableOut.rows.length ≤ sampleTable.rows.length ∧
    ∃ src : List (List Cell), src.Sublist sampleTable.rows ∧
      List.Forall₂ (fun r o => rowClean (cellAt r (dateIdxOf sampleTable.cols))
        (cellAt r (revIdxOf sampleTable.cols)) = some o) src sampleTableOut.rows :=
  clean_shape_subsequence sampleTable sampleTableOut (by decide) (by decide)
